import Mathlib

/-!
Verification development for the Toldi.js request-dispatch pipeline.

The definitions below are a shallow embedding of `src/toldi.js` and its
built-in middlewares (`requestParsers.js`, `redirectToResponse.js`):
strings are `List Char`, JS objects used as string-keyed maps are
insertion-ordered association lists with overwriting assignment
(`setKey`), and fallible parsers return `Option` (JS `null` becomes
`none`).  Each definition names the source function it embeds.
-/

namespace Toldi

/-- Convert a Lean string literal to the `List Char` representation used
throughout this development. -/
def str (s : String) : List Char := s.toList

/-- Insertion-ordered map assignment, modelling a JS object property write
`obj[k] = v`: an existing key keeps its position and gets the new value,
a fresh key is appended at the end. -/
def setKey {V : Type} : List (List Char × V) → List Char → V → List (List Char × V)
  | [], k, v => [(k, v)]
  | (k', v') :: rest, k, v =>
    if k' = k then (k', v) :: rest else (k', v') :: setKey rest k v

/-- Map lookup, modelling a JS object property read `obj[k]`
(`none` for a missing property). -/
def lookupAssoc {V : Type} : List (List Char × V) → List Char → Option V
  | [], _ => none
  | (k, v) :: rest, key => if k = key then some v else lookupAssoc rest key

/-- JS `a || b` on two option-like lookups (`a` wins when present). -/
def jsOr {V : Type} : Option V → Option V → Option V
  | some v, _ => some v
  | none, o => o

/-!
## Segment tokenizer (`splitWithoutEmptyStrings`, toldi.js lines 524-546)

The source iterates over the string with index `i`, buffering characters;
at a separator it pushes the buffer unless the buffer is empty and the
separator sits at the very first or very last character position.
-/

/-- Loop body of `splitWithoutEmptyStrings`: `n` is the total input
length, `i` the index of the first character of the remaining list. -/
def splitGo (sep : Char) (n : Nat) : List Char → Nat → List Char → List (List Char) → List (List Char)
  | [], _, buffer, result =>
    if buffer ≠ [] then result ++ [buffer] else result
  | c :: rest, i, buffer, result =>
    if c = sep then
      if ¬(buffer = [] ∧ (i = 0 ∨ i = n - 1)) then
        splitGo sep n rest (i + 1) [] (result ++ [buffer])
      else
        splitGo sep n rest (i + 1) [] result
    else
      splitGo sep n rest (i + 1) (buffer ++ [c]) result

/-- Embeds `splitWithoutEmptyStrings(data, separator)`: split at `sep`,
dropping an empty segment produced at the first or last character
position; if nothing at all was collected, fall back to `[data]`. -/
def splitWithoutEmptyStrings (data : List Char) (sep : Char) : List (List Char) :=
  let r := splitGo sep data.length data 0 [] []
  if r = [] then [data] else r

/-!
## Path matcher (dynamic branch of `requestHandler`, toldi.js lines 375-414)
-/

/-- Embeds the route-segment test
`splitRoutePath[j] && splitRoutePath[j][0] === '{' && splitRoutePath[j][len-1] === '}'`. -/
def isParamSeg (p : List Char) : Bool :=
  decide (p ≠ []) && decide (p.head? = some '\x7b') && decide (p.getLast? = some '\x7d')

/-- Embeds `splitRoutePath[j].slice(1, splitRoutePath[j].length - 1)`. -/
def paramName (p : List Char) : List Char := (p.drop 1).dropLast

/-- Parameter bindings (`req.params`): name, matched segment. -/
abbrev Params := List (List Char × List Char)

/-- Embeds the inner `for (j)` loop of the dynamic matcher: walk request
segments against route segments; `['*']` short-circuits to success, a
`\x7b…\x7d` segment binds a parameter, otherwise the segments must be
equal.  The loop is driven by the request segments, as in the source. -/
def matchWalk : List (List Char) → List (List Char) → Params → Option Params
  | [], _, temp => some temp
  | r :: rs, ps, temp =>
    match ps with
    | [] => none
    | p :: ps' =>
      if p = ['*'] then some temp
      else if isParamSeg p then matchWalk rs ps' (setKey temp (paramName p) r)
      else if r = p then matchWalk rs ps' temp
      else none

/-- Embeds the per-route test of the dynamic scan: the segment-count
equality check (`splitReqPath.length !== splitRoutePath.length` ⇒ skip)
followed by the pairwise walk with an empty fresh binding map. -/
def routeMatchSegs (rq ps : List (List Char)) : Option Params :=
  if rq.length = ps.length then matchWalk rq ps [] else none

/-!
## Route table (`Route` class, `reorder`, `setSearchMode`, `requestHandler`)
-/

/-- A handler entry attached to a method: either a plain `Handler` or a
`SplitHandler`.  Handler functions themselves are abstracted to numeric
identifiers, since the routing claims only compare which entry is
selected; split-handler dispatch is modelled separately by
`splitHandle`. -/
inductive HEntry
  | simple (hid : Nat)
  | split (sid : Nat) (numHandlers : Nat)
deriving DecidableEq, Repr

/-- Embeds the `Route` class: a path, the method→entry map `handlers`,
and the route-scoped middleware list (each middleware abstracted to
whether it invokes its continuation, see `runChain`). -/
structure Route where
  path : List Char
  handlers : List (List Char × HEntry)
  middlewares : List Bool
deriving DecidableEq, Repr

/-- The sentinel method name `"ALL"`. -/
def allMethod : List Char := str "ALL"

/-- Embeds the dynamic-mode scan of `requestHandler`: routes are tried in
table order; a route is skipped when it has neither a handler for the
(uppercased) request method nor an `"ALL"` handler
(`handlers[method] === undefined && handlers["ALL"] === undefined`);
otherwise the length check and segment walk decide the match, and the
first success returns the route, the chosen entry
(`handlers[method] || handlers["ALL"]`) and the bindings. -/
def dynamicFindSegs : List Route → List (List Char) → List Char → Option (Route × HEntry × Params)
  | [], _, _ => none
  | r :: rest, rq, m =>
    match jsOr (lookupAssoc r.handlers m) (lookupAssoc r.handlers allMethod) with
    | none => dynamicFindSegs rest rq m
    | some e =>
      match routeMatchSegs rq (splitWithoutEmptyStrings r.path '/') with
      | some ps => some (r, e, ps)
      | none => dynamicFindSegs rest rq m

/-- Dynamic-mode lookup on a raw request path (the source tokenizes
`req.path` once before the scan). -/
def dynamicFind (routes : List Route) (reqPath m : List Char) : Option (Route × HEntry × Params) :=
  dynamicFindSegs routes (splitWithoutEmptyStrings reqPath '/') m

/-- Embeds the static-mode branch of `requestHandler` (lines 415-427):
one exact lookup `this.routes[req.path]`, then the guard
`route && route.handlers[upperCaseMethod]`.  Because the guard already
requires the exact-method entry to be present, the subsequent
`handlers[method] || handlers["ALL"]` always evaluates to the
exact-method entry, so the selected entry is that one. -/
def staticFind (table : List (List Char × Route)) (reqPath m : List Char) : Option (Route × HEntry) :=
  match lookupAssoc table reqPath with
  | none => none
  | some r =>
    match lookupAssoc r.handlers m with
    | some e => some (r, e)
    | none => none

/-- Embeds the `keepRoutes` conversion of `setSearchMode("static", true)`:
`for (i) tempRoutes[routes[i].path] = routes[i]` — sequential
overwriting assignment into a fresh object. -/
def toStatic (routes : List Route) : List (List Char × Route) :=
  routes.foldl (fun acc r => setKey acc r.path r) []

/-- Embeds the `filter`-with-side-arrays body of `reorder` (lines
293-307), returning the kept routes, the parameter routes and the
wildcard routes in their original relative order. -/
def reorderGo : List Route → List Route × List Route × List Route
  | [] => ([], [], [])
  | r :: rest =>
    let (k, p, w) := reorderGo rest
    if r.path.contains '\x7b' && r.path.contains '\x7d' then (k, r :: p, w)
    else if r.path.contains '*' then (k, p, r :: w)
    else (r :: k, p, w)

/-- Embeds `reorder()`: plain routes, then parameterized routes, then
wildcard routes. -/
def reorder (routes : List Route) : List Route :=
  let (k, p, w) := reorderGo routes
  k ++ p ++ w

/-!
## Middleware chain executor (`execMiddlewares`, toldi.js lines 440-458)

A middleware's interaction with the executor is fully described by
whether it invokes its continuation (`done`/`callNext`), so a chain is a
`List Bool`.  `runChain` is the denotation of `execMiddlewares`: how many
middlewares of the chain run, and whether the returned promise resolves
(a middleware that never calls `callNext` leaves the promise pending
forever).
-/

/-- Denotation of `execMiddlewares`: number of middlewares executed and
whether the chain completed.  The empty chain resolves at once; a
middleware always executes when reached, and `callNext` hands control to
the rest of the list. -/
def runChain : List Bool → Nat × Bool
  | [] => (0, true)
  | b :: rest => if b then (1 + (runChain rest).1, (runChain rest).2) else (1, false)

/-- Embeds the middleware phase of `requestHandler`: the global chain,
then the matched route's chain, then the handler's chain are awaited in
this order, and the terminal handler runs only if all three resolved.
Returns the number of terminal-handler invocations (0 or 1). -/
def pipeline (globalChain routeChain methodChain : List Bool) : Nat :=
  if (runChain globalChain).2 then
    if (runChain routeChain).2 then
      if (runChain methodChain).2 then 1 else 0
    else 0
  else 0

/-!
## Split handler (`SplitHandler.handle`, toldi.js lines 47-58)
-/

/-- Observable outcome of one `SplitHandler.handle` call: how many
`"error"` events were emitted, the synthesized response (status, body)
if any, and which candidate handler index was invoked, if any. -/
structure SplitOutcome where
  errorEvents : Nat
  status : Option Nat
  body : Option (List Char)
  invoked : Option Nat
deriving DecidableEq, Repr

/-- Embeds `SplitHandler.handle`: the awaited splitter result is checked
against `result >= this.handlers.length || result < 0`; out of range
emits one `"error"` event and ends the response with status 500 and the
configured `responses["500"]` text, in range invokes
`this.handlers[result]`. -/
def splitHandle (numHandlers : Nat) (result : Int) (resp500 : List Char) : SplitOutcome :=
  if (numHandlers : Int) ≤ result ∨ result < 0 then
    ⟨1, some 500, some resp500, none⟩
  else
    ⟨0, none, none, some result.toNat⟩

/-!
## Query-string parser (`parseQuery`, requestParsers.js lines 805-876)

The value coercion (`convertValues`) is abstracted into a function
`coerce : List Char → V` applied to the raw value buffer exactly where
the source stores `query[keyBuffer] = …`; instantiating
`coerce := fun v => v` gives the `convertValues = false` branch.  The
control flow (separators, `%`-decoding, `null` returns, overwriting
duplicate keys) is independent of the coercion.
-/

/-- Test used by the regex `/^([0-9a-fA-F]){2,2}$/` on a single
character. -/
def isHexDigit (c : Char) : Bool :=
  ('0' ≤ c && c ≤ '9') || ('a' ≤ c && c ≤ 'f') || ('A' ≤ c && c ≤ 'F')

/-- Numeric value of a hex digit (`Number("0x" + hex)` per digit). -/
def hexVal (c : Char) : Nat :=
  if '0' ≤ c && c ≤ '9' then c.toNat - 48
  else if 'a' ≤ c && c ≤ 'f' then c.toNat - 87
  else if 'A' ≤ c && c ≤ 'F' then c.toNat - 55
  else 0

/-- The character `String.fromCharCode(Number("0x" + c1 + c2))`. -/
def hexChar (c1 c2 : Char) : Char := Char.ofNat (16 * hexVal c1 + hexVal c2)

/-- Loop of `parseQuery` over the remaining characters, carrying
`keyBuffer`, `valueBuffer`, `readingKey` and the accumulated object. In
source order: `=` (empty key ⇒ `null`, else switch to value), `&`/`;`
(empty key ⇒ `null`, else store and reset), `%` (exactly two following
hex digits are decoded into the active buffer, anything else ⇒ `null`),
default (append to the active buffer).  After the loop an empty
`keyBuffer` ⇒ `null`, otherwise the final pair is stored. -/
def parseQueryGo {V : Type} (coerce : List Char → V) :
    List Char → List Char → List Char → Bool → List (List Char × V) → Option (List (List Char × V))
  | [], key, val, _, q =>
    if key = [] then none else some (setKey q key (coerce val))
  | c :: rest, key, val, rk, q =>
    if c = '=' then
      if key = [] then none else parseQueryGo coerce rest key val false q
    else if c = '&' ∨ c = ';' then
      if key = [] then none
      else parseQueryGo coerce rest [] [] true (setKey q key (coerce val))
    else if c = '%' then
      match rest with
      | c1 :: c2 :: rest' =>
        if isHexDigit c1 && isHexDigit c2 then
          if rk then parseQueryGo coerce rest' (key ++ [hexChar c1 c2]) val rk q
          else parseQueryGo coerce rest' key (val ++ [hexChar c1 c2]) rk q
        else none
      | _ => none
    else if rk then parseQueryGo coerce rest (key ++ [c]) val rk q
    else parseQueryGo coerce rest key (val ++ [c]) rk q

/-- Embeds `parseQuery(queryString, convertValues)`. -/
def parseQuery {V : Type} (coerce : List Char → V) (s : List Char) : Option (List (List Char × V)) :=
  parseQueryGo coerce s [] [] true []

/-!
## Cookie-header parser (`cookieParser`, requestParsers.js lines 731-796)

Same value-coercion abstraction as `parseQuery`.  The cookie loop has no
`%` branch at all; after a `;` stores a pair, `i++` unconditionally skips
the following character (the expected space).
-/

/-- Loop of the cookie parser, returning the accumulated object together
with the final `keyBuffer` and `valueBuffer` (needed by the
end-of-string flush).  A `=` only separates while `readingKey`; a `;`
with an empty `keyBuffer` ⇒ `null`, otherwise stores the pair and skips
one extra character. -/
def cookieGo {V : Type} (coerce : List Char → V) :
    List Char → List Char → List Char → Bool → List (List Char × V) →
    Option (List (List Char × V) × List Char × List Char)
  | [], key, val, _, acc => some (acc, key, val)
  | c :: rest, key, val, rk, acc =>
    if rk ∧ c = '=' then
      if key = [] then none else cookieGo coerce rest key val false acc
    else if c = ';' then
      if key = [] then none
      else
        match rest with
        | [] => some (setKey acc key (coerce val), [], [])
        | _ :: rest' => cookieGo coerce rest' [] [] true (setKey acc key (coerce val))
    else if rk then cookieGo coerce rest (key ++ [c]) val rk acc
    else cookieGo coerce rest key (val ++ [c]) rk acc

/-- Embeds the cookie-string parse of `cookieParser`: run the loop, then,
when the original string does not end in `;`, flush the final pair —
with an empty final key or value being a hard failure. -/
def cookieParse {V : Type} (coerce : List Char → V) (s : List Char) :
    Option (List (List Char × V)) :=
  match cookieGo coerce s [] [] true [] with
  | none => none
  | some (acc, key, val) =>
    if s.getLast? ≠ some ';' then
      if val = [] ∨ key = [] then none
      else some (setKey acc key (coerce val))
    else some acc

/-!
## Built-in middlewares at the request interface
(`queryParser` lines 705-723, `cookieParser` lines 731-796)
-/

/-- The per-request state the built-in parsing middlewares read and
write: the raw url, the optional `query` and `cookies` properties
(`none` = the property is absent/undefined) and the raw `Cookie` header
(`none` = header absent). -/
structure PReq (V : Type) where
  url : List Char
  query : Option (List (List Char × V))
  cookies : Option (List (List Char × V))
  headersCookie : Option (List Char)
deriving DecidableEq, Repr

/-- Embeds `String.prototype.indexOf` for a single character. -/
def indexOfChar (c : Char) : List Char → Option Nat
  | [] => none
  | x :: rest => if x = c then some 0 else (indexOfChar c rest).map (· + 1)

/-- Embeds the `queryParser` middleware: no `?` in `req.url` ⇒ call
`done()` without touching the request; otherwise parse the substring
after the first `?`; failure writes a 400 with the configured
`responses["400q"]` text and does not call `done()`; success sets
`req.query` and calls `done()`.  Result: (request state, whether `done`
was called, response written if any). -/
def queryParserMW {V : Type} (coerce : List Char → V) (resp400q : List Char) (req : PReq V) :
    PReq V × Bool × Option (Nat × List Char) :=
  match indexOfChar '?' req.url with
  | none => (req, true, none)
  | some i =>
    match parseQuery coerce (req.url.drop (i + 1)) with
    | none => (req, false, some (400, resp400q))
    | some q => ({ req with query := some q }, true, none)

/-- Embeds the `cookieParser` middleware: a missing (or empty, both are
falsy) `Cookie` header ⇒ `req.cookies = {}` and `done()`; otherwise the
header is parsed, failure writes a 400 with `responses["400c"]` without
calling `done()`, success sets `req.cookies` and calls `done()`. -/
def cookieParserMW {V : Type} (coerce : List Char → V) (resp400c : List Char) (req : PReq V) :
    PReq V × Bool × Option (Nat × List Char) :=
  if req.headersCookie.getD [] = [] then
    ({ req with cookies := some [] }, true, none)
  else
    match cookieParse coerce (req.headersCookie.getD []) with
    | none => (req, false, some (400, resp400c))
    | some m => ({ req with cookies := some m }, true, none)

/-!
## Reference definitions for the tokenizer characterization

`splitCollapseRef` restates the tokenizer in spec style — an ordinary
split keeping empty segments, followed by the two boundary drops and the
fallback — to be proved equal to `splitWithoutEmptyStrings`.
`splitGoEnd` is an index-free restatement of `splitGo` used as a stepping
stone.
-/

/-- Ordinary split at `sep` keeping every (possibly empty) segment. -/
def naiveSplit (sep : Char) : List Char → List (List Char)
  | [] => [[]]
  | c :: rest =>
    if c = sep then [] :: naiveSplit sep rest
    else
      match naiveSplit sep rest with
      | [] => [[c]]
      | s :: t => (c :: s) :: t

/-- Drop the first segment when it is empty (the one produced by a
delimiter at the very first character position). -/
def dropHeadEmpty : List (List Char) → List (List Char)
  | [] => []
  | s :: t => if s = [] then t else s :: t

/-- Drop the last segment when it is empty, and after that drop the new
last segment when it too is empty (the segments produced around a
delimiter at the very last character position). -/
def trimTail : List (List Char) → List (List Char)
  | [] => []
  | [s] => if s = [] then [] else [s]
  | [s, t] => if t = [] then (if s = [] then [] else [s]) else [s, t]
  | s :: rest => s :: trimTail rest

/-- Prepend `b` to the first segment (`b` is the buffer already read when
the remaining characters start). -/
def consHead (b : List Char) : List (List Char) → List (List Char)
  | [] => [b]
  | s :: t => (b ++ s) :: t

/-- Index-free restatement of `splitGo`: the `i = 0` case is gone (only
the very first call of `splitGo` can have `i = 0`) and `i = n - 1` is
replaced by the remaining characters being exhausted. -/
def splitGoEnd (sep : Char) : List Char → List Char → List (List Char) → List (List Char)
  | [], buffer, result => if buffer ≠ [] then result ++ [buffer] else result
  | c :: rest, buffer, result =>
    if c = sep then
      if ¬(buffer = [] ∧ rest = []) then splitGoEnd sep rest [] (result ++ [buffer])
      else splitGoEnd sep rest [] result
    else splitGoEnd sep rest (buffer ++ [c]) result

/-- Spec-style characterization of the tokenizer: split keeping empties,
drop the boundary empties, fall back to `[data]` when nothing is left. -/
def splitCollapseRef (data : List Char) (sep : Char) : List (List Char) :=
  let r := trimTail (dropHeadEmpty (naiveSplit sep data))
  if r = [] then [data] else r

/-!
## Canonical paths and literal routes (for the static/dynamic comparison)
-/

/-- Join segments with `/` (inverse of tokenization on canonical
paths). -/
def joinSegs : List (List Char) → List Char
  | [] => []
  | [s] => s
  | s :: rest => s ++ '/' :: joinSegs rest

/-- A path is canonical when it is exactly `'/'` followed by its own
segments joined with `'/'` — no trailing, duplicate or missing
delimiters.  On canonical paths, tokenization is injective. -/
def canonicalPath (p : List Char) : Bool :=
  decide (p = '/' :: joinSegs (splitWithoutEmptyStrings p '/'))

/-- Route classification used by `reorder`: parameterized when the path
contains both `\x7b` and `\x7d`. -/
def isParamRoute (r : Route) : Bool := r.path.contains '\x7b' && r.path.contains '\x7d'

/-- Wildcard route: not parameterized, path contains `*`. -/
def isWildRoute (r : Route) : Bool := !isParamRoute r && r.path.contains '*'

/-- Plain route: neither parameterized nor wildcard. -/
def isPlainRoute (r : Route) : Bool := !isParamRoute r && !r.path.contains '*'

/-!
## Concrete routes used by the closed theorems
-/

/-- A wildcard route `"/files/*"` with a GET handler. -/
def routeFilesWild : Route := ⟨str "/files/*", [(str "GET", .simple 1)], []⟩

/-- A route `"/x"` whose only handler is registered for `"ALL"`. -/
def routeAllOnly : Route := ⟨str "/x", [(str "ALL", .simple 3)], []⟩

/-- A literal route whose path ends in a delimiter: `"/a/"`. -/
def routeSlashA : Route := ⟨str "/a/", [(str "GET", .simple 7)], []⟩

/-- A canonical literal route `"/a"` with a GET handler. -/
def routeLitA : Route := ⟨str "/a", [(str "GET", .simple 0)], []⟩

/-!
# Theorems
-/

/-- C1.  In dynamic search mode the segment-count equality check runs
before the wildcard is ever inspected, so the wildcard does not bypass
it: the route `"/files/*"` (with a GET handler) is skipped for the
request path `"/files/a/b/c"` — the lookup returns no match — while the
same route does match the equal-length path `"/files/x"`.  This
contradicts the claimed (and README-documented) "match anything after"
wildcard semantics. -/
theorem wildcard_route_rejected_by_length_check :
    dynamicFind [routeFilesWild] (str "/files/a/b/c") (str "GET") = none
    ∧ dynamicFind [routeFilesWild] (str "/files/x") (str "GET") =
        some (routeFilesWild, HEntry.simple 1, []) :=
  ⟨by decide, by decide⟩

/-- C2.  `parseQuery` on the empty input string returns the malformed
signal (`none`), not an empty mapping — contradicting the claim and the
function's own doc comment; the other parts of the claim behave as
stated: `"=1"` is malformed and the last occurrence of a duplicate key
overwrites the earlier one. -/
theorem parseQuery_empty_input_is_malformed :
    parseQuery (fun v => v) (str "") = none
    ∧ parseQuery (fun v => v) (str "=1") = none
    ∧ parseQuery (fun v => v) (str "a=1&a=2&b=3") =
        some [(str "a", str "2"), (str "b", str "3")] :=
  ⟨by decide, by decide, by decide⟩

/-- C3.  In static search mode the guard `route && route.handlers[method]`
requires the exact-method entry, so a route whose only handler is
registered for `"ALL"` falls through to the fallback: the lookup returns
`none` even though the `"ALL"` entry exists (and the same route would be
dispatched in dynamic mode). -/
theorem static_mode_ignores_all_handler :
    staticFind (toStatic [routeAllOnly]) (str "/x") (str "GET") = none
    ∧ lookupAssoc routeAllOnly.handlers allMethod = some (HEntry.simple 3)
    ∧ dynamicFind [routeAllOnly] (str "/x") (str "GET") =
        some (routeAllOnly, HEntry.simple 3, []) :=
  ⟨by decide, by decide, by decide⟩

/-- C7.  `SplitHandler.handle` with a splitter result outside `[0, n)`
emits exactly one error notification, responds 500 with the configured
internal-error text and invokes no candidate handler; with a valid index
it invokes exactly the candidate at that index. -/
theorem splitHandle_bounds (n : Nat) (result : Int) (resp : List Char) :
    ((result < 0 ∨ (n : Int) ≤ result) →
      splitHandle n result resp = ⟨1, some 500, some resp, none⟩)
    ∧ (0 ≤ result → result < (n : Int) →
      splitHandle n result resp = ⟨0, none, none, some result.toNat⟩ ∧ result.toNat < n) := by
  constructor
  · intro h
    unfold splitHandle
    rw [if_pos (by omega)]
  · intro h0 hn
    unfold splitHandle
    rw [if_neg (by omega)]
    exact ⟨rfl, by omega⟩

/-- C7 witness: a splitter returning 2 with only 2 candidates (valid
indices 0 and 1) yields one error event and a 500 with the configured
body; returning 1 invokes candidate 1. -/
theorem splitHandle_bounds_witness :
    splitHandle 2 2 (str "ouch") = ⟨1, some 500, some (str "ouch"), none⟩
    ∧ splitHandle 2 1 (str "ouch") = ⟨0, none, none, some 1⟩ :=
  ⟨(splitHandle_bounds 2 2 (str "ouch")).1 (by decide),
   ((splitHandle_bounds 2 1 (str "ouch")).2 (by decide) (by decide)).1⟩

/-- Helper: `indexOf` finds nothing when the character is absent. -/
theorem indexOfChar_eq_none {c : Char} : ∀ {l : List Char}, c ∉ l → indexOfChar c l = none
  | [], _ => rfl
  | x :: rest, h => by
    unfold indexOfChar
    rw [if_neg (by intro hx; exact h (hx ▸ List.mem_cons_self x rest)),
      indexOfChar_eq_none (fun hm => h (List.mem_cons_of_mem x hm))]
    rfl

/-- C10.  The built-in parsers treat absent input asymmetrically: with no
`?` in the url the query middleware calls `done()` leaving the request
(and in particular `req.query`) untouched, while with no `Cookie` header
the cookie middleware sets `req.cookies` to the empty mapping before
calling `done()`. -/
theorem absent_input_asymmetry {V : Type} (coerce : List Char → V)
    (respq respc : List Char) (req : PReq V) :
    ('?' ∉ req.url → queryParserMW coerce respq req = (req, true, none))
    ∧ (req.headersCookie = none →
        cookieParserMW coerce respc req = ({ req with cookies := some [] }, true, none)) := by
  constructor
  · intro h
    unfold queryParserMW
    rw [indexOfChar_eq_none h]
  · intro h
    unfold cookieParserMW
    rw [h]
    rfl

/-- C10 witness: a request for `"/x"` with no `?` and no `Cookie` header;
the query property stays absent, the cookies property becomes the empty
mapping. -/
theorem absent_input_asymmetry_witness :
    queryParserMW (fun v : List Char => v) [] ⟨str "/x", none, none, none⟩ =
      (⟨str "/x", none, none, none⟩, true, none)
    ∧ cookieParserMW (fun v : List Char => v) [] ⟨str "/x", none, none, none⟩ =
      (⟨str "/x", none, some [], none⟩, true, none) :=
  ⟨(absent_input_asymmetry (fun v => v) [] [] ⟨str "/x", none, none, none⟩).1 (by decide),
   (absent_input_asymmetry (fun v => v) [] [] ⟨str "/x", none, none, none⟩).2 rfl⟩

/-- Helper: a nonempty chain always executes at least its first
middleware. -/
theorem runChain_count_eq_zero : ∀ {l : List Bool}, (runChain l).1 = 0 → l = [] := by
  intro l h
  cases l with
  | nil => rfl
  | cons b rest =>
    exfalso
    cases b
    · have h1 : (1 : Nat) = 0 := h
      omega
    · have h1 : 1 + (runChain rest).1 = 0 := h
      omega

/-- Helper: a middleware that never calls its continuation leaves the
chain unresolved, and nothing beyond it executes. -/
theorem runChain_get_false : ∀ {l : List Bool} {j : Nat}, l.get? j = some false →
    (runChain l).2 = false ∧ (runChain l).1 ≤ j + 1 := by
  intro l
  induction l with
  | nil => intro j h; simp [List.get?] at h
  | cons b rest ih =>
    intro j h
    cases j with
    | zero =>
      have hb : b = false := by simpa [List.get?] using h
      subst hb
      exact ⟨rfl, Nat.le_refl 1⟩
    | succ j' =>
      have h' : rest.get? j' = some false := by simpa [List.get?] using h
      obtain ⟨hc, hn⟩ := ih h'
      cases b
      · refine ⟨rfl, ?_⟩
        show (1 : Nat) ≤ j' + 1 + 1
        omega
      · refine ⟨hc, ?_⟩
        show 1 + (runChain rest).1 ≤ j' + 1 + 1
        omega

/-- Helper: a middleware that does call its continuation hands control to
the next middleware in list order, or resolves the chain when it was the
last one. -/
theorem runChain_get_true : ∀ {l : List Bool} {j : Nat}, l.get? j = some true →
    j < (runChain l).1 →
    j + 1 < (runChain l).1 ∨ (j + 1 = l.length ∧ (runChain l).2 = true) := by
  intro l
  induction l with
  | nil => intro j h; simp [List.get?] at h
  | cons b rest ih =>
    intro j h hj
    cases j with
    | zero =>
      have hb : b = true := by simpa [List.get?] using h
      subst hb
      by_cases hz : (runChain rest).1 = 0
      · right
        have hrest : rest = [] := runChain_count_eq_zero hz
        subst hrest
        exact ⟨rfl, rfl⟩
      · left
        show 0 + 1 < 1 + (runChain rest).1
        omega
    | succ j' =>
      have h' : rest.get? j' = some true := by simpa [List.get?] using h
      cases b
      · have hj1 : j' + 1 < 1 := hj
        omega
      · have hj1 : j' + 1 < 1 + (runChain rest).1 := hj
        rcases ih h' (by omega) with h1 | ⟨h1, h2⟩
        · left
          show j' + 1 + 1 < 1 + (runChain rest).1
          omega
        · right
          refine ⟨?_, h2⟩
          show j' + 1 + 1 = rest.length + 1
          omega

/-- Helper: a chain all of whose middlewares call their continuation runs
in full and resolves as complete. -/
theorem runChain_all_true : ∀ {l : List Bool}, (∀ b ∈ l, b = true) →
    (runChain l).1 = l.length ∧ (runChain l).2 = true := by
  intro l
  induction l with
  | nil => intro _; exact ⟨rfl, rfl⟩
  | cons b rest ih =>
    intro h
    have hb : b = true := h b (List.mem_cons_self b rest)
    have hr := ih fun x hx => h x (List.mem_cons_of_mem b hx)
    subst hb
    refine ⟨?_, hr.2⟩
    show 1 + (runChain rest).1 = rest.length + 1
    omega

/-- Helper: an unresolved chain keeps the handler count at zero no matter
which of the three chains stalled. -/
theorem pipeline_eq_zero {g r mth : List Bool}
    (h : (runChain g).2 = false ∨ (runChain r).2 = false ∨ (runChain mth).2 = false) :
    pipeline g r mth = 0 := by
  rcases h with h | h | h <;> simp [pipeline, h]

/-- C8.  If a middleware at position `j` of any of the three chains never
invokes its continuation, the terminal handler is never invoked (count
stays 0) and no middleware after position `j` in that chain runs;
conversely a middleware that invokes its continuation hands control to
the next middleware in list order (or resolves the chain when none
remain), a chain of continuation-calling middlewares runs in full and
resolves, and when all three chains resolve the terminal handler runs
exactly once. -/
theorem middleware_short_circuit (g r mth : List Bool) (j : Nat) :
    (g.get? j = some false → pipeline g r mth = 0 ∧ (runChain g).1 ≤ j + 1)
    ∧ (r.get? j = some false → pipeline g r mth = 0 ∧ (runChain r).1 ≤ j + 1)
    ∧ (mth.get? j = some false → pipeline g r mth = 0 ∧ (runChain mth).1 ≤ j + 1)
    ∧ (g.get? j = some true → j < (runChain g).1 →
        j + 1 < (runChain g).1 ∨ (j + 1 = g.length ∧ (runChain g).2 = true))
    ∧ ((∀ b ∈ g, b = true) → (runChain g).1 = g.length ∧ (runChain g).2 = true)
    ∧ ((∀ b ∈ g, b = true) → (∀ b ∈ r, b = true) → (∀ b ∈ mth, b = true) →
        pipeline g r mth = 1) := by
  refine ⟨?_, ?_, ?_, ?_, ?_, ?_⟩
  · intro h
    obtain ⟨hc, hn⟩ := runChain_get_false h
    exact ⟨pipeline_eq_zero (Or.inl hc), hn⟩
  · intro h
    obtain ⟨hc, hn⟩ := runChain_get_false h
    exact ⟨pipeline_eq_zero (Or.inr (Or.inl hc)), hn⟩
  · intro h
    obtain ⟨hc, hn⟩ := runChain_get_false h
    exact ⟨pipeline_eq_zero (Or.inr (Or.inr hc)), hn⟩
  · exact runChain_get_true
  · exact runChain_all_true
  · intro hg hr hm
    unfold pipeline
    rw [(runChain_all_true hg).2, (runChain_all_true hr).2, (runChain_all_true hm).2]
    rfl

/-- C8 witness: in the chain `[continue, halt, continue]` the halting
middleware at index 1 keeps the handler count at 0 and at most the first
two middlewares run; with all middlewares continuing the handler runs
once. -/
theorem middleware_short_circuit_witness :
    (pipeline [true, false, true] [] [] = 0 ∧ (runChain [true, false, true]).1 ≤ 2)
    ∧ pipeline [true, true] [true] [] = 1 :=
  ⟨(middleware_short_circuit [true, false, true] [] [] 1).1 (by decide),
   (middleware_short_circuit [true, true] [true] [] 0).2.2.2.2.2
     (by decide) (by decide) (by decide)⟩

/-- Helper: the `filter`-with-side-arrays loop of `reorder` computes the
three order-preserving sublists given by the route classification. -/
theorem reorderGo_eq : ∀ routes : List Route,
    reorderGo routes =
      (routes.filter isPlainRoute, routes.filter isParamRoute, routes.filter isWildRoute) := by
  intro routes
  induction routes with
  | nil => rfl
  | cons r rest ih =>
    simp only [reorderGo, ih]
    by_cases h1 : '\x7b' ∈ r.path <;> by_cases h2 : '\x7d' ∈ r.path <;>
      by_cases h3 : '*' ∈ r.path <;>
      simp [List.filter_cons, isPlainRoute, isParamRoute, isWildRoute, h1, h2, h3]

/-- Helper: the dynamic scan selects the first route in table order that
both owns a usable handler (exact method or `"ALL"`) and path-matches
the request. -/
theorem dynamicFindSegs_eq_find? :
    ∀ (routes : List Route) (rq : List (List Char)) (m : List Char),
    (dynamicFindSegs routes rq m).map (fun x => x.1) =
      routes.find? (fun r =>
        (jsOr (lookupAssoc r.handlers m) (lookupAssoc r.handlers allMethod)).isSome
        && (routeMatchSegs rq (splitWithoutEmptyStrings r.path '/')).isSome) := by
  intro routes rq m
  induction routes with
  | nil => rfl
  | cons r rest ih =>
    rcases hj : jsOr (lookupAssoc r.handlers m) (lookupAssoc r.handlers allMethod) with _ | e
    · rw [List.find?_cons_of_neg _ (by simp [hj])]
      simp only [dynamicFindSegs, hj]
      exact ih
    · rcases hm : routeMatchSegs rq (splitWithoutEmptyStrings r.path '/') with _ | ps
      · rw [List.find?_cons_of_neg _ (by simp [hj, hm])]
        simp only [dynamicFindSegs, hj, hm]
        exact ih
      · rw [List.find?_cons_of_pos _ (by simp [hj, hm])]
        simp [dynamicFindSegs, hj, hm]

/-- C9.  `reorder()` rearranges the dynamic route table into plain
routes, then parameterized routes (path contains both `\x7b` and
`\x7d`, taking precedence over the wildcard test), then wildcard routes
(path contains `*`), each group keeping its relative order; and the
dynamic lookup scans the table in order, skipping routes lacking both
the exact-method and the `"ALL"` handler, the first path-matching
remaining route winning. -/
theorem reorder_partition_and_first_match (routes : List Route) (rq : List (List Char))
    (m : List Char) :
    reorder routes =
      routes.filter isPlainRoute ++ routes.filter isParamRoute ++ routes.filter isWildRoute
    ∧ (dynamicFindSegs routes rq m).map (fun x => x.1) =
      routes.find? (fun r =>
        (jsOr (lookupAssoc r.handlers m) (lookupAssoc r.handlers allMethod)).isSome
        && (routeMatchSegs rq (splitWithoutEmptyStrings r.path '/')).isSome) := by
  constructor
  · simp [reorder, reorderGo_eq]
  · exact dynamicFindSegs_eq_find? routes rq m

/-- C6 counterexample.  The cookie parser performs no percent-decoding at
all: the cookie string `"a=%41"` parses to the literal value `"%41"`
(the claim requires `"A"`), and the malformed sequence `"%zz"` does not
fail the parse — both contradicting the claim that percent-handling
applies to the cookie-header parser as well. -/
theorem cookieParser_does_not_percent_decode :
    cookieParse (fun v => v) (str "a=%41") = some [(str "a", str "%41")]
    ∧ cookieParse (fun v => v) (str "a=%zz;") = some [(str "a", str "%zz")]
    ∧ str "%41" ≠ str "A" :=
  ⟨by decide, by decide, by decide⟩

/-- C6 amended.  Percent-handling is exclusive to the query-string
parser: there, a `%` followed by exactly two hex digits is decoded
inline into whichever buffer (key or value) is being read, and a `%`
not followed by exactly two hex digits makes the whole parse fail
(`none`); the cookie parser instead copies `%` literally into the
active buffer and never fails on it.  End to end,
`parseQuery` maps `"a=%41"` to the mapping `a ↦ coerce "A"`. -/
theorem percent_decoding_query_only {V : Type} (coerce : List Char → V)
    (c1 c2 : Char) (rest key val : List Char) (rk : Bool)
    (q : List (List Char × V)) (acc : List (List Char × V)) :
    (isHexDigit c1 = true → isHexDigit c2 = true →
      parseQueryGo coerce ('%' :: c1 :: c2 :: rest) key val rk q =
        if rk then parseQueryGo coerce rest (key ++ [hexChar c1 c2]) val rk q
        else parseQueryGo coerce rest key (val ++ [hexChar c1 c2]) rk q)
    ∧ ((isHexDigit c1 && isHexDigit c2) = false →
      parseQueryGo coerce ('%' :: c1 :: c2 :: rest) key val rk q = none)
    ∧ parseQueryGo coerce ['%'] key val rk q = none
    ∧ parseQueryGo coerce ['%', c1] key val rk q = none
    ∧ cookieGo coerce ('%' :: rest) key val rk acc =
        (if rk then cookieGo coerce rest (key ++ ['%']) val rk acc
         else cookieGo coerce rest key (val ++ ['%']) rk acc)
    ∧ parseQuery coerce (str "a=%41") = some [(str "a", coerce (str "A"))] := by
  refine ⟨?_, ?_, ?_, ?_, ?_, ?_⟩
  · intro h1 h2
    simp [parseQueryGo, h1, h2]
  · intro h
    simp [parseQueryGo, h]
  · rfl
  · rfl
  · rw [cookieGo.eq_def]
    simp
  · rfl

/-- C6 witness: instantiating the decoding step at the concrete fragment
`"%41"` read in value position. -/
theorem percent_decoding_query_only_witness :
    parseQueryGo (fun v : List Char => v) ('%' :: '4' :: '1' :: []) ['a'] [] false [] =
      (if false then parseQueryGo (fun v : List Char => v) [] (['a'] ++ [hexChar '4' '1']) [] false []
       else parseQueryGo (fun v : List Char => v) [] ['a'] ([] ++ [hexChar '4' '1']) false []) :=
  (percent_decoding_query_only (fun v => v) '4' '1' [] ['a'] [] false [] []).1
    (by decide) (by decide)

/-- Helper: the ordinary split always produces at least one segment. -/
theorem naiveSplit_ne_nil (sep : Char) : ∀ l : List Char, naiveSplit sep l ≠ [] := by
  intro l
  cases l with
  | nil => simp [naiveSplit]
  | cons c rest =>
    simp only [naiveSplit]
    by_cases hc : c = sep
    · simp [hc]
    · rw [if_neg hc]
      rcases h : naiveSplit sep rest with _ | ⟨s, t⟩ <;> simp

/-- Helper: a one-segment ordinary split means the input had no
separator, so the segment is the input itself. -/
theorem naiveSplit_singleton (sep : Char) : ∀ {l s : List Char}, naiveSplit sep l = [s] → s = l := by
  intro l
  induction l with
  | nil =>
    intro s h
    simp only [naiveSplit] at h
    injection h with h1 _
    exact h1.symm
  | cons c rest ih =>
    intro s h
    simp only [naiveSplit] at h
    by_cases hc : c = sep
    · rw [if_pos hc] at h
      injection h with _ h2
      exact absurd h2 (naiveSplit_ne_nil sep rest)
    · rw [if_neg hc] at h
      rcases hn : naiveSplit sep rest with _ | ⟨s0, t⟩
      · exact absurd hn (naiveSplit_ne_nil sep rest)
      · rw [hn] at h
        injection h with h1 h2
        subst h2
        have hs0 : s0 = rest := ih hn
        rw [← h1, hs0]

/-- Helper: once past the first character, the `i = 0` disjunct of the
position test is dead and `i = n - 1` says the remaining characters are
exhausted, so the indexed loop agrees with its index-free form. -/
theorem splitGo_eq_end (sep : Char) (n : Nat) :
    ∀ (l : List Char) (i : Nat) (buffer : List Char) (result : List (List Char)),
    1 ≤ i → i + l.length = n →
    splitGo sep n l i buffer result = splitGoEnd sep l buffer result := by
  intro l
  induction l with
  | nil => intro i buffer result _ _; rfl
  | cons c rest ih =>
    intro i buffer result h1 h2
    have hlen : i + 1 + rest.length = n := by
      simp only [List.length_cons] at h2
      omega
    simp only [splitGo, splitGoEnd]
    by_cases hc : c = sep
    · rw [if_pos hc, if_pos hc]
      have hiff : (i = 0 ∨ i = n - 1) ↔ rest = [] := by
        rw [← List.length_eq_zero]
        omega
      by_cases hb : buffer = [] ∧ rest = []
      · rw [if_neg (not_not_intro ⟨hb.1, hiff.mpr hb.2⟩), if_neg (not_not_intro hb)]
        exact ih (i + 1) [] result (by omega) (by omega)
      · have hglobal : ¬(buffer = [] ∧ (i = 0 ∨ i = n - 1)) :=
          fun h => hb ⟨h.1, hiff.mp h.2⟩
        rw [if_pos hglobal, if_pos hb]
        exact ih (i + 1) [] (result ++ [buffer]) (by omega) (by omega)
    · rw [if_neg hc, if_neg hc]
      exact ih (i + 1) (buffer ++ [c]) result (by omega) (by omega)

/-- Helper: the index-free loop equals the ordinary split with the
buffer prepended to the first segment, the trailing drops applied, and
the accumulated result in front. -/
theorem splitGoEnd_eq (sep : Char) :
    ∀ (l : List Char) (buffer : List Char) (result : List (List Char)),
    splitGoEnd sep l buffer result = result ++ trimTail (consHead buffer (naiveSplit sep l)) := by
  intro l
  induction l with
  | nil =>
    intro buffer result
    by_cases hb : buffer = []
    · subst hb
      simp [splitGoEnd, naiveSplit, consHead, trimTail]
    · simp [splitGoEnd, naiveSplit, consHead, trimTail, hb]
  | cons c rest ih =>
    intro buffer result
    by_cases hc : c = sep
    · subst hc
      have hsplit : naiveSplit c (c :: rest) = [] :: naiveSplit c rest := by
        simp [naiveSplit]
      by_cases hb : buffer = [] ∧ rest = []
      · obtain ⟨hb1, hb2⟩ := hb
        subst hb1
        subst hb2
        simp [splitGoEnd, naiveSplit, consHead, trimTail]
      · have hstep : splitGoEnd c (c :: rest) buffer result
            = splitGoEnd c rest [] (result ++ [buffer]) := by
          simp only [splitGoEnd]
          rw [if_pos trivial, if_pos hb]
        rw [hstep, ih, hsplit]
        rcases hn : naiveSplit c rest with _ | ⟨s0, t⟩
        · exact absurd hn (naiveSplit_ne_nil c rest)
        · simp only [consHead, List.nil_append, List.append_nil]
          rw [List.append_assoc]
          congr 1
          rcases t with _ | ⟨s1, t'⟩
          · have hs0 : s0 = rest := naiveSplit_singleton c hn
            by_cases h0 : s0 = []
            · have hrest : rest = [] := by rw [← hs0]; exact h0
              have hbuf : buffer ≠ [] := fun hbe => hb ⟨hbe, hrest⟩
              subst h0
              simp [trimTail, hbuf]
            · simp [trimTail, h0]
          · have h4 : trimTail (buffer :: s0 :: s1 :: t') = buffer :: trimTail (s0 :: s1 :: t') := rfl
            rw [h4]
            rfl
    · have hstep : splitGoEnd sep (c :: rest) buffer result
          = splitGoEnd sep rest (buffer ++ [c]) result := by
        simp only [splitGoEnd]
        rw [if_neg hc]
      rw [hstep, ih]
      rcases hn : naiveSplit sep rest with _ | ⟨s, t⟩
      · exact absurd hn (naiveSplit_ne_nil sep rest)
      · have h2 : naiveSplit sep (c :: rest) = (c :: s) :: t := by
          simp only [naiveSplit]
          rw [if_neg hc, hn]
        rw [h2]
        simp only [consHead]
        rw [List.append_assoc]
        rfl

/-- C4 counterexample.  Adjacent interior delimiters do produce an
empty-string segment: `tokenize("a//b", '/')` is `["a", "", "b"]`,
refuting "never yields an empty-string segment". -/
theorem tokenizer_keeps_interior_empty_segment :
    splitWithoutEmptyStrings (str "a//b") '/' = [str "a", [], str "b"]
    ∧ [] ∈ splitWithoutEmptyStrings (str "a//b") '/' :=
  ⟨by decide, by decide⟩

/-- C4 amended.  The tokenizer equals the spec-style description: split
at the delimiter keeping every segment, drop the first segment when it
is empty, drop the last segment when it is empty and then the new last
segment when it too is empty (these are exactly the empty segments
produced by a delimiter at the very first or very last character
position — empty segments from adjacent interior delimiters are kept),
and fall back to the one-element list containing the input verbatim when
nothing remains; in particular `tokenize("/a/b/", '/') = ["a","b"]`,
`tokenize("/", '/') = ["/"]` and `tokenize("", '/') = [""]`. -/
theorem splitWithoutEmptyStrings_characterization (data : List Char) (sep : Char) :
    splitWithoutEmptyStrings data sep = splitCollapseRef data sep := by
  cases data with
  | nil => rfl
  | cons c rest =>
    by_cases hc : c = sep
    · subst hc
      have h1 : splitGo c ((c :: rest).length) (c :: rest) 0 [] []
          = splitGo c ((c :: rest).length) rest 1 [] [] := by
        simp [splitGo]
      have hA := splitGo_eq_end c ((c :: rest).length) rest 1 [] []
        (Nat.le_refl 1) (by simp only [List.length_cons]; omega)
      have hB := splitGoEnd_eq c rest [] []
      have hsplit : naiveSplit c (c :: rest) = [] :: naiveSplit c rest := by
        simp [naiveSplit]
      have hcons : consHead [] (naiveSplit c rest) = naiveSplit c rest := by
        rcases hn : naiveSplit c rest with _ | ⟨s, t⟩
        · exact absurd hn (naiveSplit_ne_nil c rest)
        · simp [consHead]
      have hcore : splitGo c ((c :: rest).length) (c :: rest) 0 [] []
          = trimTail (dropHeadEmpty (naiveSplit c (c :: rest))) := by
        rw [h1, hA, hB, hcons, hsplit]
        simp [dropHeadEmpty]
      simp only [splitWithoutEmptyStrings, splitCollapseRef]
      rw [hcore]
    · have h1 : splitGo sep ((c :: rest).length) (c :: rest) 0 [] []
          = splitGo sep ((c :: rest).length) rest 1 [c] [] := by
        simp only [splitGo]
        rw [if_neg hc]
        rfl
      have hA := splitGo_eq_end sep ((c :: rest).length) rest 1 [c] []
        (Nat.le_refl 1) (by simp only [List.length_cons]; omega)
      have hB := splitGoEnd_eq sep rest [c] []
      have hcore : splitGo sep ((c :: rest).length) (c :: rest) 0 [] []
          = trimTail (dropHeadEmpty (naiveSplit sep (c :: rest))) := by
        rw [h1, hA, hB]
        rcases hn : naiveSplit sep rest with _ | ⟨s, t⟩
        · exact absurd hn (naiveSplit_ne_nil sep rest)
        · have h2 : naiveSplit sep (c :: rest) = (c :: s) :: t := by
            simp only [naiveSplit]
            rw [if_neg hc, hn]
          rw [h2]
          simp [consHead, dropHeadEmpty]
      simp only [splitWithoutEmptyStrings, splitCollapseRef]
      rw [hcore]

/-- Helper: on a route whose segments are all literal (no `"*"`, no
parameter segment), the matcher walk succeeds exactly on the identical
segment list, binding nothing. -/
theorem matchWalk_literal : ∀ {rs ps : List (List Char)} {t : Params},
    rs.length = ps.length →
    (∀ s ∈ ps, s ≠ ['*'] ∧ isParamSeg s = false) →
    matchWalk rs ps t = if rs = ps then some t else none := by
  intro rs
  induction rs with
  | nil =>
    intro ps t hl _
    have hps : ps = [] := List.length_eq_zero.mp hl.symm
    subst hps
    simp [matchWalk]
  | cons r rs' ih =>
    intro ps t hl hlit
    cases ps with
    | nil => simp at hl
    | cons p ps' =>
      obtain ⟨hstar, hparam⟩ := hlit p (List.mem_cons_self p ps')
      have hlit' : ∀ s ∈ ps', s ≠ ['*'] ∧ isParamSeg s = false :=
        fun s hs => hlit s (List.mem_cons_of_mem p hs)
      have hl' : rs'.length = ps'.length := by
        simp only [List.length_cons] at hl
        omega
      have hpar : ¬isParamSeg p = true := by simp [hparam]
      simp only [matchWalk]
      rw [if_neg hstar, if_neg hpar]
      by_cases hr : r = p
      · subst hr
        rw [if_pos rfl, ih hl' hlit']
        by_cases he : rs' = ps'
        · rw [if_pos he, if_pos (by rw [he])]
        · rw [if_neg he, if_neg (by intro hcon; injection hcon with _ h2; exact he h2)]
      · rw [if_neg hr, if_neg (by intro hcon; injection hcon with h1 _; exact hr h1)]

/-- Helper: a fully literal route path matches exactly the identical
tokenized request path (the length check subsumed). -/
theorem routeMatchSegs_literal (rq : List (List Char)) {ps : List (List Char)}
    (hlit : ∀ s ∈ ps, s ≠ ['*'] ∧ isParamSeg s = false) :
    routeMatchSegs rq ps = if rq = ps then some [] else none := by
  unfold routeMatchSegs
  by_cases hl : rq.length = ps.length
  · rw [if_pos hl, matchWalk_literal hl hlit]
  · rw [if_neg hl, if_neg (fun he => hl (by rw [he]))]

/-- Helper: assigning a fresh key appends the pair at the end. -/
theorem setKey_fresh {V : Type} : ∀ (m : List (List Char × V)) (k : List Char) (v : V),
    (∀ p ∈ m, p.1 ≠ k) → setKey m k v = m ++ [(k, v)] := by
  intro m k v
  induction m with
  | nil => intro _; rfl
  | cons p rest ih =>
    intro h
    obtain ⟨k', v'⟩ := p
    simp only [setKey]
    rw [if_neg (h (k', v') (List.mem_cons_self _ _)),
      ih (fun q hq => h q (List.mem_cons_of_mem _ hq))]
    rfl

/-- Helper: the `setSearchMode` conversion loop over routes with pairwise
distinct paths builds exactly the path-keyed pairing of the route
list. -/
theorem toStatic_go : ∀ (routes : List Route) (acc : List (List Char × Route)),
    (∀ r ∈ routes, ∀ p ∈ acc, p.1 ≠ r.path) →
    List.Pairwise (fun a b : Route => a.path ≠ b.path) routes →
    routes.foldl (fun acc r => setKey acc r.path r) acc
      = acc ++ routes.map (fun r => (r.path, r)) := by
  intro routes
  induction routes with
  | nil => intro acc _ _; simp
  | cons r rest ih =>
    intro acc hfresh hpw
    rw [List.pairwise_cons] at hpw
    rw [List.foldl_cons]
    have hset : setKey acc r.path r = acc ++ [(r.path, r)] :=
      setKey_fresh acc r.path r (fun p hp => hfresh r (List.mem_cons_self _ _) p hp)
    have hfresh' : ∀ r' ∈ rest, ∀ p ∈ acc ++ [(r.path, r)], p.1 ≠ r'.path := by
      intro r' hr' p hp
      rcases List.mem_append.mp hp with h | h
      · exact hfresh r' (List.mem_cons_of_mem _ hr') p h
      · have hpr : p = (r.path, r) := by simpa using h
        subst hpr
        exact hpw.1 r' hr'
    rw [hset, ih (acc ++ [(r.path, r)]) hfresh' hpw.2]
    simp

/-- Helper: with pairwise distinct paths the derived static table is the
path-keyed pairing of the dynamic table. -/
theorem toStatic_eq_map (routes : List Route)
    (h : List.Pairwise (fun a b : Route => a.path ≠ b.path) routes) :
    toStatic routes = routes.map (fun r => (r.path, r)) := by
  unfold toStatic
  rw [toStatic_go routes [] (by intro r _ p hp; simp at hp) h]
  simp

/-- Helper: the inductive core of the static/dynamic comparison over the
path-keyed table. -/
theorem staticDynamicAux (q m : List Char) (hq : canonicalPath q = true) :
    ∀ routes : List Route,
    (∀ r ∈ routes, ∀ s ∈ splitWithoutEmptyStrings r.path '/', s ≠ ['*'] ∧ isParamSeg s = false) →
    (∀ r ∈ routes, canonicalPath r.path = true) →
    (∀ r ∈ routes, (lookupAssoc r.handlers m).isSome = true) →
    (dynamicFindSegs routes (splitWithoutEmptyStrings q '/') m).map (fun x => (x.1, x.2.1)) =
      staticFind (routes.map fun r => (r.path, r)) q m := by
  intro routes
  induction routes with
  | nil => intro _ _ _; rfl
  | cons r rest ih =>
    intro hlit hcan hm
    have hmr := hm r (List.mem_cons_self _ _)
    obtain ⟨e, he⟩ := Option.isSome_iff_exists.mp hmr
    have hjs : jsOr (lookupAssoc r.handlers m) (lookupAssoc r.handlers allMethod) = some e := by
      rw [he]
      rfl
    have hrm := routeMatchSegs_literal (splitWithoutEmptyStrings q '/')
      (hlit r (List.mem_cons_self _ _))
    rw [List.map_cons]
    by_cases heq : splitWithoutEmptyStrings q '/' = splitWithoutEmptyStrings r.path '/'
    · have hq' : q = '/' :: joinSegs (splitWithoutEmptyStrings q '/') := of_decide_eq_true hq
      have hr' : r.path = '/' :: joinSegs (splitWithoutEmptyStrings r.path '/') :=
        of_decide_eq_true (hcan r (List.mem_cons_self _ _))
      have hqr : q = r.path := by rw [hq', hr', heq]
      have hdyn : dynamicFindSegs (r :: rest) (splitWithoutEmptyStrings q '/') m
          = some (r, e, []) := by
        simp only [dynamicFindSegs, hjs]
        rw [hrm, if_pos heq]
      have hlk : lookupAssoc ((r.path, r) :: rest.map (fun r => (r.path, r))) q = some r := by
        simp only [lookupAssoc]
        rw [if_pos hqr.symm]
      have hstat : staticFind ((r.path, r) :: rest.map (fun r => (r.path, r))) q m
          = some (r, e) := by
        simp only [staticFind, hlk, he]
      rw [hdyn, hstat]
      rfl
    · have hne : q ≠ r.path := by
        intro hcon
        exact heq (by rw [hcon])
      have hdyn : dynamicFindSegs (r :: rest) (splitWithoutEmptyStrings q '/') m
          = dynamicFindSegs rest (splitWithoutEmptyStrings q '/') m := by
        simp only [dynamicFindSegs, hjs]
        rw [hrm, if_neg heq]
      have hlk : lookupAssoc ((r.path, r) :: rest.map (fun r => (r.path, r))) q
          = lookupAssoc (rest.map (fun r => (r.path, r))) q := by
        simp only [lookupAssoc]
        rw [if_neg (fun hcon => hne hcon.symm)]
      have hstat : staticFind ((r.path, r) :: rest.map (fun r => (r.path, r))) q m
          = staticFind (rest.map (fun r => (r.path, r))) q m := by
        simp only [staticFind, hlk]
      rw [hdyn, hstat]
      exact ih (fun r' h' => hlit r' (List.mem_cons_of_mem _ h'))
        (fun r' h' => hcan r' (List.mem_cons_of_mem _ h'))
        (fun r' h' => hm r' (List.mem_cons_of_mem _ h'))

/-- C5 counterexample.  The claim fails for the literal route `"/a/"`
(no `*`, no parameter): in dynamic mode the request path `"/a"`
tokenizes equally to `"/a/"` and matches the route, while in static mode
the exact string lookup misses and falls through to the fallback — the
two modes select different handlers for the same route table. -/
theorem mode_switch_changes_match_result :
    (dynamicFind [routeSlashA] (str "/a") (str "GET")).map (fun x => (x.1, x.2.1)) =
      some (routeSlashA, HEntry.simple 7)
    ∧ staticFind (toStatic [routeSlashA]) (str "/a") (str "GET") = none :=
  ⟨by decide, by decide⟩

/-- C5 amended.  For a route table of literal routes (no `"*"` and no
parameter segments) whose paths are canonical (`'/'` followed by the
`'/'`-join of their segments, so tokenization loses nothing) and
pairwise distinct, and a canonical request path, if every route has a
handler registered for the request's exact method then switching the
search mode with route preservation is invisible: the dynamic scan and
the static exact lookup select the same route and handler entry (or both
fall through to the fallback). -/
theorem static_dynamic_equiv_for_literal_routes (routes : List Route) (q m : List Char)
    (hlit : ∀ r ∈ routes, ∀ s ∈ splitWithoutEmptyStrings r.path '/',
      s ≠ ['*'] ∧ isParamSeg s = false)
    (hcan : ∀ r ∈ routes, canonicalPath r.path = true)
    (hq : canonicalPath q = true)
    (hm : ∀ r ∈ routes, (lookupAssoc r.handlers m).isSome = true)
    (hnd : (routes.map (fun r => r.path)).Nodup) :
    (dynamicFind routes q m).map (fun x => (x.1, x.2.1)) = staticFind (toStatic routes) q m := by
  have hpw : List.Pairwise (fun a b : Route => a.path ≠ b.path) routes :=
    List.pairwise_map.mp hnd
  rw [toStatic_eq_map routes hpw]
  exact staticDynamicAux q m hq routes hlit hcan hm

/-- C5 witness: the one-route table `["/a"]` with a GET handler gives the
same selection in both modes for the request `GET "/a"`. -/
theorem static_dynamic_equiv_witness :
    (dynamicFind [routeLitA] (str "/a") (str "GET")).map (fun x => (x.1, x.2.1)) =
      staticFind (toStatic [routeLitA]) (str "/a") (str "GET") :=
  static_dynamic_equiv_for_literal_routes [routeLitA] (str "/a") (str "GET")
    (by decide) (by decide) (by decide) (by decide) (by decide)

end Toldi
